import Mathlib

/-!
Verification development for the Cytek log parser
(`src/cytek_log_parser.py`).

The Python source is shallowly embedded over `List Char` / `String`:

* `strip_timestamp` — the eight `re.sub` passes of the Python
  `strip_timestamp` function.  The six date/time patterns are embedded by a
  small candidate-list semantics of the exact regular expressions (leftmost
  match, Python backtracking preference order); the last two
  punctuation-collapsing substitutions are embedded as direct recursive
  functions on character lists.
* `canonicalKey` — the grouping-key derivation inside `aggregate_errors`
  (generic `error`-prefix strip plus the three Cytek domain overrides).
* `aggregate_errors` — counting, stable descending sort, percentage strings.
* `parse_log_file` — line splitting, permissive UTF-8 decoding
  (`errors='ignore'`), error detection by case-insensitive substring test.

Character classes (`\d`, `\w`, `\s`, `str.lower`, `str.strip`) are modelled
at their ASCII meaning; all data handled by the claims is ASCII.
-/

/-! ### Character classes -/

/-- Python `\s` (ASCII range): the six ASCII whitespace characters. -/
def isPySpace (c : Char) : Bool :=
  c = ' ' || c = '\t' || c = '\n' || c = '\r' || c = '\x0b' || c = '\x0c'

/-- Python `\w` (ASCII range): letters, digits and underscore. -/
def isWordChar (c : Char) : Bool :=
  c.isAlphanum || c = '_'

/-- The class `[-:\.,/]` of the run-collapsing substitution
`re.sub(r'[-:\.,/]{2,}', ' ', s)`. -/
def cls7 (c : Char) : Bool :=
  c = '-' || c = ':' || c = '.' || c = ',' || c = '/'

/-- The class `[\s:\-\[\],\.]` of the final collapsing substitution
`re.sub(r'[\s:\-\[\],\.]+', ' ', s)`. -/
def cls8 (c : Char) : Bool :=
  isPySpace c || c = ':' || c = '-' || c = '[' || c = ']' || c = ',' || c = '.'

/-- The trailing separator class `[\s:\-\[\]\(\)\.]` of the
`'error'`-prefix-stripping substitution in `aggregate_errors`. -/
def cls9 (c : Char) : Bool :=
  isPySpace c || c = ':' || c = '-' || c = '[' || c = ']' || c = '(' || c = ')' || c = '.'

/-! ### A candidate-list semantics for the six date/time regexes

A matcher takes the whole subject string and a start position and returns
the list of possible end positions, in Python's backtracking preference
order (greedy quantifiers longest first, alternatives left first, `?`
preferring presence).  The end position actually used by `re.sub` is the
head of the list. -/

abbrev RE := List Char → Nat → List Nat

/-- Is the character at position `i` a `\w` character (out of range: no)? -/
def isWordAt (s : List Char) (i : Nat) : Bool :=
  match s.get? i with
  | some c => isWordChar c
  | none => false

/-- Python's `\b`: a word boundary between positions `i-1` and `i`. -/
def wordBoundary (s : List Char) (i : Nat) : Bool :=
  (match i with
   | 0 => false
   | j + 1 => isWordAt s j) != isWordAt s i

/-- Matcher for `\b`: consumes nothing. -/
def reBound : RE := fun s i => if wordBoundary s i then [i] else []

/-- A single character from a class. -/
def reChar (p : Char → Bool) : RE := fun s i =>
  match s.get? i with
  | some c => if p c then [i + 1] else []
  | none => []

/-- A literal character. -/
def reCharIs (c : Char) : RE := reChar (fun c' => c' = c)

/-- Sequencing: all ends of `a`, each continued by `b`, preference order
preserved. -/
def reSeq (a b : RE) : RE := fun s i =>
  (a s i).flatMap (fun j => b s j)

/-- Alternation `x|y`: left alternative preferred. -/
def reAlt (a b : RE) : RE := fun s i => a s i ++ b s i

/-- Greedy option `x?`: presence preferred. -/
def reOpt (a : RE) : RE := fun s i => a s i ++ [i]

/-- Length of the maximal run of class-`p` characters starting at `i`. -/
def runLen (p : Char → Bool) (s : List Char) (i : Nat) : Nat :=
  ((s.drop i).takeWhile p).length

/-- Greedy bounded repetition `p{lo,hi}` of a single-character class:
candidate ends from the longest feasible repetition down to `lo`. -/
def reRep (p : Char → Bool) (lo hi : Nat) : RE := fun s i =>
  let r := min hi (runLen p s i)
  if r < lo then [] else (List.range (r + 1 - lo)).map (fun k => i + (r - k))

/-- Greedy `p*` of a single-character class. -/
def reStar (p : Char → Bool) : RE := fun s i =>
  let r := runLen p s i
  (List.range (r + 1)).map (fun k => i + (r - k))

/-- A case-insensitive literal (the literal itself given in lower case). -/
def reLitCI (w : List Char) : RE := fun s i =>
  if ((s.drop i).take w.length).map Char.toLower = w then [i + w.length] else []

/-- Matcher for `(am|pm)`, case-insensitive. -/
def reAmPm : RE := reAlt (reLitCI ['a', 'm']) (reLitCI ['p', 'm'])

/-- Pattern `\b\d{1,2}/\d{1,2}/\d{2,4}\b` (slash-separated date). -/
def pat1 : RE :=
  reSeq reBound (reSeq (reRep Char.isDigit 1 2) (reSeq (reCharIs '/')
    (reSeq (reRep Char.isDigit 1 2) (reSeq (reCharIs '/')
      (reSeq (reRep Char.isDigit 2 4) reBound)))))

/-- Pattern `\b\d{4}-\d{1,2}-\d{1,2}\b` (dash-separated date, 4-digit year). -/
def pat2 : RE :=
  reSeq reBound (reSeq (reRep Char.isDigit 4 4) (reSeq (reCharIs '-')
    (reSeq (reRep Char.isDigit 1 2) (reSeq (reCharIs '-')
      (reSeq (reRep Char.isDigit 1 2) reBound)))))

/-- Pattern `\b\d{4}/\d{1,2}/\d{1,2}\b` (slash-separated date, 4-digit year). -/
def pat3 : RE :=
  reSeq reBound (reSeq (reRep Char.isDigit 4 4) (reSeq (reCharIs '/')
    (reSeq (reRep Char.isDigit 1 2) (reSeq (reCharIs '/')
      (reSeq (reRep Char.isDigit 1 2) reBound)))))

/-- Pattern `\b\d{1,2}:\d{2}(?::\d{2})?\s*(am|pm)?\b`, case-insensitive (clock time). -/
def pat4 : RE :=
  reSeq reBound (reSeq (reRep Char.isDigit 1 2) (reSeq (reCharIs ':')
    (reSeq (reRep Char.isDigit 2 2)
      (reSeq (reOpt (reSeq (reCharIs ':') (reRep Char.isDigit 2 2)))
        (reSeq (reStar isPySpace) (reSeq (reOpt reAmPm) reBound))))))

/-- Pattern `\b\d{1,2}\s*(am|pm)\b`, case-insensitive (bare hour with am/pm). -/
def pat5 : RE :=
  reSeq reBound (reSeq (reRep Char.isDigit 1 2)
    (reSeq (reStar isPySpace) (reSeq reAmPm reBound)))

/-- Pattern `\b(am|pm)\b`, case-insensitive (standalone am/pm token). -/
def pat6 : RE := reSeq reBound (reSeq reAmPm reBound)

/-! ### The substitution driver

`re.sub` semantics for patterns that never match the empty string: scan
left to right over the original string; at the first position where the
pattern matches, emit the replacement, and resume scanning at the end of
the match. -/

def reSubGo (re : RE) (repl : List Char) (s : List Char) : Nat → Nat → List Char
  | 0, i => s.drop i
  | fuel + 1, i =>
    if i < s.length then
      match (re s i).head? with
      | some j =>
        if i < j then repl ++ reSubGo re repl s fuel j
        else s.getD i ' ' :: reSubGo re repl s fuel (i + 1)
      | none => s.getD i ' ' :: reSubGo re repl s fuel (i + 1)
    else []

/-- Python `re.sub(pattern, repl, s)` for the patterns above (none of which can
match the empty string). -/
def reSub (re : RE) (repl : List Char) (s : List Char) : List Char :=
  reSubGo re repl s (s.length + 1) 0

/-! ### The two punctuation-collapsing substitutions, as direct recursions -/

theorem length_dropWhile_le' (p : Char → Bool) (l : List Char) :
    (l.dropWhile p).length ≤ l.length := by
  induction l with
  | nil => simp [List.dropWhile]
  | cons c cs ih =>
    by_cases h : p c
    · simp only [List.dropWhile, h]
      exact Nat.le_succ_of_le ih
    · simp [List.dropWhile, h]

/-- The scanner for `re.sub(r'[-:\.,/]{2,}', ' ', s)`.  With `inRun = true`
the scanner is inside a run of `cls7` characters whose replacement space
has already been emitted and skips the run's remaining characters.  With
`inRun = false` it is outside any match: a `cls7` character followed by
another `cls7` character starts a match of the `{2,}` repetition (replaced
by one space, greedily consuming the whole run); any other character is
copied.  A lone `cls7` character is kept. -/
def collapse7Go : Bool → List Char → List Char
  | _, [] => []
  | true, c :: cs =>
    if cls7 c then collapse7Go true cs else c :: collapse7Go false cs
  | false, [c] => [c]
  | false, a :: b :: rest =>
    if cls7 a && cls7 b then ' ' :: collapse7Go true rest
    else a :: collapse7Go false (b :: rest)

/-- Translation of `re.sub(r'[-:\.,/]{2,}', ' ', s)`: every maximal run of two or more
`cls7` characters is replaced by a single space (a lone `cls7` character
is kept). -/
def collapse7 (l : List Char) : List Char := collapse7Go false l

/-- The scanner for `re.sub(r'[\s:\-\[\],\.]+', ' ', s)`: with
`inRun = true` the current position continues a run of `cls8` characters
whose replacement space has already been emitted. -/
def collapse8Go : Bool → List Char → List Char
  | _, [] => []
  | inRun, c :: cs =>
    if cls8 c then
      (if inRun then [] else [' ']) ++ collapse8Go true cs
    else c :: collapse8Go false cs

/-- Translation of `re.sub(r'[\s:\-\[\],\.]+', ' ', s)`: every maximal run of `cls8`
characters is replaced by a single space. -/
def collapse8 (l : List Char) : List Char := collapse8Go false l

/-- Python `str.strip()` (ASCII whitespace): drop whitespace from both ends. -/
def pyStrip (l : List Char) : List Char :=
  ((l.reverse.dropWhile isPySpace).reverse).dropWhile isPySpace

/-! ### `strip_timestamp` -/

/-- The Python `strip_timestamp` helper: the six date/time `re.sub` passes
followed by the two punctuation-collapsing passes and a final `strip()`. -/
def strip_timestamp (s : List Char) : List Char :=
  pyStrip (collapse8 (collapse7
    (reSub pat6 [] (reSub pat5 [] (reSub pat4 []
      (reSub pat3 [] (reSub pat2 [] (reSub pat1 [] s))))))))

/-- The function `strip_timestamp` on `String`s. -/
def stripTimestampS (s : String) : String :=
  String.mk (strip_timestamp s.data)

/-! ### Canonical key derivation (`aggregate_errors`, step 1) -/

/-- The anchored substitution
`re.sub(r'^error(\s*\([^\)]*\))?[\s:\-\[\]\(\)\.]*', '', s, flags=re.IGNORECASE)`,
translated step by step: a case-insensitive literal `error` prefix, then the
greedy optional group `\s*\([^\)]*\)` (whitespace, an opening parenthesis,
anything up to and including the next closing parenthesis; if no closing
parenthesis follows, the group fails and is skipped), then the greedy
separator-class run `[\s:\-\[\]\(\)\.]*`.  Being anchored, the substitution
removes at most this one leading unit. -/
def dropErrorLead (l : List Char) : List Char :=
  if (l.take 5).map Char.toLower = "error".data then
    let r := l.drop 5
    let afterQual :=
      match r.dropWhile isPySpace with
      | '(' :: r2 =>
        match r2.dropWhile (fun c => c ≠ ')') with
        | ')' :: r4 => r4
        | _ => r
      | _ => r
    afterQual.dropWhile cls9
  else l

/-- Translation of `re.sub(r'^[^a-zA-Z]+', '', s)`: drop the leading run of
non-ASCII-letter characters. -/
def dropNonAlpha (l : List Char) : List Char :=
  l.dropWhile (fun c => !c.isAlpha)

/-- Python `s[0].upper() + s[1:]` when the string is non-empty. -/
def upFirst : List Char → List Char
  | [] => []
  | c :: r => c.toUpper :: r

/-- Python's substring test `needle in hay`: `needle` occurs contiguously
somewhere in `hay`. -/
def isSubstr (needle : List Char) : List Char → Bool
  | [] => needle.isEmpty
  | c :: t => needle.isPrefixOf (c :: t) || isSubstr needle t

/-- The three Cytek domain-override phrases tested against the lower-cased
timestamp-stripped text, in the order of the `if`/`elif` chain. -/
def phrase1 : List Char := "cytek device readafpgaregister".data
def phrase2 : List Char := "cytek device readmfpgaregisterrmt".data
def phrase3 : List Char := "cytek device writemfpgaregisterrmt".data

/-- The lower-cased timestamp-stripped text `no_time_lower` of an error
line: `strip_timestamp(err.strip()).lower()`. -/
def lowerNoTime (err : List Char) : List Char :=
  (strip_timestamp (pyStrip err)).map Char.toLower

/-- The grouping key the aggregation loop computes for one error line:
the generic `error`-prefix-stripped, capitalised text, overridden by one
of the three fixed Cytek labels when the corresponding phrase occurs in
`no_time_lower` (first match of the `if`/`elif` chain wins). -/
def canonicalKey (err : List Char) : List Char :=
  let no_time := strip_timestamp (pyStrip err)
  let no_time_lower := no_time.map Char.toLower
  let new_no_time := upFirst (dropNonAlpha (dropErrorLead no_time))
  if isSubstr phrase1 no_time_lower then "Cytek device readafpgaregister".data
  else if isSubstr phrase2 no_time_lower then "Cytek device readmfpgaregisterrmt".data
  else if isSubstr phrase3 no_time_lower then "Cytek device writemfpgaregisterrmt".data
  else new_no_time

/-- The function `canonicalKey` on `String`s. -/
def canonicalKeyS (err : String) : String :=
  String.mk (canonicalKey err.data)

/-! ### Aggregation (`aggregate_errors`) -/

/-- Python `summary[key] = summary.get(key, 0) + 1` on an insertion-ordered
association list (the model of a Python `dict`): increment the first entry
with this key, or append a fresh entry at the end. -/
def bump (k : String) : List (String × Nat) → List (String × Nat)
  | [] => [(k, 1)]
  | (k', v) :: rest =>
    if k' = k then (k', v + 1) :: rest else (k', v) :: bump k rest

/-- Insert an element into a count-descending list, before the first entry
of smaller-or-equal count: the insertion step of a stable descending sort
by count (Python's `sorted(..., key=lambda x: x[1], reverse=True)`). -/
def insertDesc (x : String × Nat) : List (String × Nat) → List (String × Nat)
  | [] => [x]
  | y :: r => if y.2 ≤ x.2 then x :: y :: r else y :: insertDesc x r

/-- Stable sort by descending count. -/
def sortDesc : List (String × Nat) → List (String × Nat)
  | [] => []
  | x :: r => insertDesc x (sortDesc r)

/-- Fuel-based floor base-2 logarithm: counts how often `n` can be halved
before dropping below 2.  The fuel argument only bounds the recursion
(structurally), so the definition evaluates by kernel reduction. -/
def log2Go : Nat → Nat → Nat
  | 0, _ => 0
  | fuel + 1, n => if 2 ≤ n then log2Go fuel (n / 2) + 1 else 0

/-- Floor of `log2 n` for `n ≥ 1` (and `0` at `n = 0`): `log2Go` with
fuel `n`, which always suffices. -/
def natLog2 (n : Nat) : Nat :=
  log2Go n n

/-- Floor of the base-2 logarithm of the positive rational `p / q` (for
`p, q ≥ 1`), computed exactly: it is `log2 p - log2 q`, minus one when
`p / q` falls below that power of two. -/
def ratLog2 (p q : Nat) : Int :=
  let lp : Int := natLog2 p
  let lq : Int := natLog2 q
  if 2 ^ (lp - lq).toNat * q ≤ 2 ^ (lq - lp).toNat * p then lp - lq else lp - lq - 1

/-- The IEEE-754 binary64 double nearest to `p / q`, as an exact dyadic
value `m * 2 ^ e`: this is what CPython's `int.__truediv__` produces
(correctly rounded, round-to-nearest ties-to-even), with the rounding
position clamped at `2 ^ (-1074)` in the subnormal range.  The mantissa
`m` is the half-to-even rounding of `p / (q * 2 ^ e)`; a carry to
`2 ^ 53` needs no renormalisation since only the value `m * 2 ^ e`
matters here.  Overflow to infinity is not modelled: the program divides
a count by the total, so its quotients lie in `[0, 100]`.  The pair
`(0, 0)` for `q = 0` is a placeholder for Python's `ZeroDivisionError`;
the program only divides when the total is nonzero. -/
def divDouble (p q : Nat) : Nat × Int :=
  if p = 0 ∨ q = 0 then (0, 0)
  else
    let e : Int := max (ratLog2 p q - 52) (-1074)
    let nd : Nat × Nat := if 0 ≤ e then (p, q * 2 ^ e.toNat) else (p * 2 ^ (-e).toNat, q)
    let q2 := nd.1 / nd.2
    let r := nd.1 % nd.2
    (q2 + (if nd.2 < 2 * r then 1 else if 2 * r < nd.2 then 0 else q2 % 2), e)

/-- Python's `:.1f` formatting of the nonnegative dyadic value `m * 2 ^ e`:
the one-decimal-digit string nearest the exact value of the double, ties
to even (CPython formats doubles correctly rounded).  The scaled value
`m * 10 * 2 ^ e` is rounded half-to-even to an integer `k` and printed
as `k / 10 . k % 10`. -/
def fmt1 (m : Nat) (e : Int) : String :=
  let k :=
    if 0 ≤ e then m * 10 * 2 ^ e.toNat
    else
      let den := 2 ^ (-e).toNat
      let q2 := m * 10 / den
      let r := m * 10 % den
      q2 + (if den < 2 * r then 1 else if 2 * r < den then 0 else q2 % 2)
  Nat.repr (k / 10) ++ "." ++ Nat.repr (k % 10)

/-- The f-string `"{int(v)} ({(100*v/total):.1f}%)"` display: the count and
the percentage `100*v/total` rendered with one decimal digit.  Python
evaluates `100*v/total` as the binary64 double nearest the exact ratio
(`divDouble`), then formats that double with `:.1f` (`fmt1`).  In
particular `fmtPct 3 2000` is `"3 (0.1%)"`: the double nearest `0.15`
is slightly below the tie, so the digit rounds down — not the
half-to-even rounding of the exact rational, which would give `0.2`. -/
def fmtPct (v total : Nat) : String :=
  let me := divDouble (100 * v) total
  Nat.repr v ++ " (" ++ fmt1 me.1 me.2 ++ "%)"

/-- The error entries of all participating sources, in source order
(`for errors in logs_errors.values(): for _, err in errors`). -/
def allEntries (input : List (String × List (Nat × String))) : List (Nat × String) :=
  (input.map Prod.snd).flatten

/-- The loop body uses only the text component of each entry
(`for _, err in errors`). -/
def entryKey (e : Nat × String) : String :=
  canonicalKeyS e.2

/-- The insertion-ordered `summary` dictionary built by the aggregation
loop, as a function of the sequence of error texts. -/
def aggSummary (texts : List String) : List (String × Nat) :=
  texts.foldl (fun m t => bump (canonicalKeyS t) m) []

/-- The Python `aggregate_errors`: returns the count-descending
`display_summary` and the `percentages` dictionary (empty when the total
is zero). -/
def aggregate_errors (input : List (String × List (Nat × String))) :
    List (String × Nat) × List (String × String) :=
  let texts := (allEntries input).map Prod.snd
  let total := texts.length
  let ds := sortDesc (aggSummary texts)
  (ds, if total = 0 then [] else ds.map (fun p => (p.1, fmtPct p.2 total)))

/-! ### `parse_log_file`: line splitting, permissive decoding, detection -/

/-- Split a byte stream into the byte lines Python's file iteration
yields: each line ends just after a `\n` byte (0x0A); a final unterminated
chunk is kept; an empty stream yields no lines. -/
def splitAux (acc : List Nat) : List Nat → List (List Nat)
  | [] => if acc = [] then [] else [acc.reverse]
  | b :: rest =>
    if b = 10 then (b :: acc).reverse :: splitAux [] rest
    else splitAux (b :: acc) rest

/-- The byte lines of a stream. -/
def splitLinesBytes (stream : List Nat) : List (List Nat) :=
  splitAux [] stream

/-- Is `c` a UTF-8 continuation byte (`0x80`–`0xBF`)? -/
def contB (c : Nat) : Bool := 0x80 ≤ c && c ≤ 0xBF

/-- Valid second byte for a three-byte sequence with first byte `b`
(UTF-8 excludes overlong encodings and surrogates). -/
def sndOK3 (b c : Nat) : Bool :=
  if b = 0xE0 then 0xA0 ≤ c && c ≤ 0xBF
  else if b = 0xED then 0x80 ≤ c && c ≤ 0x9F
  else contB c

/-- Valid second byte for a four-byte sequence with first byte `b`
(UTF-8 excludes overlong encodings and code points above `0x10FFFF`). -/
def sndOK4 (b c : Nat) : Bool :=
  if b = 0xF0 then 0x90 ≤ c && c ≤ 0xBF
  else if b = 0xF4 then 0x80 ≤ c && c ≤ 0x8F
  else contB c

/-- Try to read one complete multi-byte UTF-8 sequence whose first byte is
`b` and whose continuation bytes start `rest`: returns the code point and
the number of continuation bytes consumed. -/
def decodeMB (b : Nat) (rest : List Nat) : Option (Nat × Nat) :=
  if 0xC2 ≤ b && b ≤ 0xDF then
    match rest with
    | c :: _ => if contB c then some ((b - 0xC0) * 64 + (c - 0x80), 1) else none
    | _ => none
  else if 0xE0 ≤ b && b ≤ 0xEF then
    match rest with
    | c :: d :: _ =>
      if sndOK3 b c && contB d then
        some ((b - 0xE0) * 4096 + (c - 0x80) * 64 + (d - 0x80), 2)
      else none
    | _ => none
  else if 0xF0 ≤ b && b ≤ 0xF4 then
    match rest with
    | c :: d :: e :: _ =>
      if sndOK4 b c && contB d && contB e then
        some ((b - 0xF0) * 0x40000 + (c - 0x80) * 4096 + (d - 0x80) * 64 + (e - 0x80), 3)
      else none
    | _ => none
  else none

/-- Python `bytes.decode('utf-8', errors='ignore')`: decode, skipping over the
bytes of undecodable sequences instead of failing.  Whenever the byte at
hand does not start a complete valid sequence, exactly that one byte is
skipped; byte for byte, this keeps the same characters as CPython's
`ignore` error handler (the remaining bytes of a broken sequence are
themselves invalid start bytes and are skipped in turn). -/
def utf8Ignore : List Nat → List Char
  | [] => []
  | b :: rest =>
    if b < 0x80 then Char.ofNat b :: utf8Ignore rest
    else
      match decodeMB b rest with
      | some (v, k) => Char.ofNat v :: utf8Ignore (rest.drop k)
      | none => utf8Ignore rest
termination_by l => l.length
decreasing_by
  · simp only [List.length_cons]
    omega
  · have : (rest.drop k).length ≤ rest.length := by
      rw [List.length_drop]; omega
    simp only [List.length_cons]
    omega
  · simp only [List.length_cons]
    omega

/-- A strict UTF-8 decoder: `none` as soon as any byte does not start a
complete valid sequence. -/
def utf8Strict : List Nat → Option (List Char)
  | [] => some []
  | b :: rest =>
    if b < 0x80 then (utf8Strict rest).map (fun cs => Char.ofNat b :: cs)
    else
      match decodeMB b rest with
      | some (v, k) => (utf8Strict (rest.drop k)).map (fun cs => Char.ofNat v :: cs)
      | none => none
termination_by l => l.length
decreasing_by
  · simp only [List.length_cons]
    omega
  · have : (rest.drop k).length ≤ rest.length := by
      rw [List.length_drop]; omega
    simp only [List.length_cons]
    omega

/-- Python `line.rstrip('\n')`: drop trailing newline characters. -/
def rstripNl (s : String) : String :=
  String.mk ((s.data.reverse.dropWhile (fun c => c = '\n')).reverse)

/-- Python `"error" in line.lower()`: case-insensitive substring test. -/
def hasErrorCI (s : String) : Bool :=
  isSubstr "error".data (s.data.map Char.toLower)

/-- The detection loop of `parse_log_file`: starting at line index `n`,
collect `(index, line.rstrip('\n'))` for every line containing `"error"`
case-insensitively. -/
def detectErrors (n : Nat) : List String → List (Nat × String)
  | [] => []
  | l :: rest =>
    if hasErrorCI l then (n, rstripNl l) :: detectErrors (n + 1) rest
    else detectErrors (n + 1) rest

/-- The Python `parse_log_file` on a byte stream: the decoded lines with
trailing newlines stripped, and the detected error entries. -/
def parse_log_file (stream : List Nat) : List String × List (Nat × String) :=
  let decoded := (splitLinesBytes stream).map (fun bs => String.mk (utf8Ignore bs))
  (decoded.map rstripNl, detectErrors 0 decoded)

/-- The lines the line reader produces for a byte stream. -/
def readLines (stream : List Nat) : List String :=
  (parse_log_file stream).1

/-! ### Supporting definitions for the claim statements -/

/-- The sum of the counts of a summary. -/
def sumCounts (m : List (String × Nat)) : Nat :=
  (m.map Prod.snd).sum

/-- The count recorded for key `k` (0 if absent). -/
def lookupCount (k : String) : List (String × Nat) → Nat
  | [] => 0
  | (k', v) :: rest => if k' = k then v else lookupCount k rest

/-- The distinct elements of a list in order of first occurrence. -/
def firstKeys : List String → List String
  | [] => []
  | k :: r => k :: firstKeys (r.filter (fun k' => k' ≠ k))
termination_by l => l.length
decreasing_by
  simp only [List.length_cons]
  exact Nat.lt_succ_of_le (List.length_filter_le _ _)

/-! ### Lemmas about `bump`, `aggSummary`, `sortDesc` -/

theorem sumCounts_bump (k : String) (m : List (String × Nat)) :
    sumCounts (bump k m) = sumCounts m + 1 := by
  induction m with
  | nil => simp [bump, sumCounts]
  | cons p rest ih =>
    obtain ⟨k', v⟩ := p
    by_cases h : k' = k
    · simp only [bump, h, if_true, sumCounts, List.map_cons, List.sum_cons]
      omega
    · simp only [bump, h, if_false]
      simp only [sumCounts, List.map_cons, List.sum_cons] at ih ⊢
      omega

theorem sumCounts_foldl (texts : List String) (m : List (String × Nat)) :
    sumCounts (texts.foldl (fun m t => bump (canonicalKeyS t) m) m) =
      sumCounts m + texts.length := by
  induction texts generalizing m with
  | nil => simp
  | cons t rest ih =>
    simp only [List.foldl_cons, List.length_cons]
    rw [ih, sumCounts_bump]
    omega

theorem sumCounts_insertDesc (x : String × Nat) (l : List (String × Nat)) :
    sumCounts (insertDesc x l) = x.2 + sumCounts l := by
  induction l with
  | nil => simp [insertDesc, sumCounts]
  | cons y r ih =>
    by_cases h : y.2 ≤ x.2
    · simp [insertDesc, h, sumCounts]
    · simp only [insertDesc, h, if_false]
      simp only [sumCounts, List.map_cons, List.sum_cons] at ih ⊢
      omega

theorem sumCounts_sortDesc (l : List (String × Nat)) :
    sumCounts (sortDesc l) = sumCounts l := by
  induction l with
  | nil => rfl
  | cons x r ih =>
    simp only [sortDesc, sumCounts_insertDesc, ih]
    simp [sumCounts]

theorem lookupCount_bump (k k' : String) (m : List (String × Nat)) :
    lookupCount k (bump k' m) = lookupCount k m + (if k' = k then 1 else 0) := by
  induction m with
  | nil =>
    by_cases h : k' = k
    · simp [bump, lookupCount, h]
    · simp [bump, lookupCount, h]
  | cons p rest ih =>
    obtain ⟨k'', v⟩ := p
    by_cases h : k'' = k'
    · subst h
      by_cases h2 : k'' = k
      · simp [bump, lookupCount, h2]
      · simp [bump, lookupCount, h2]
    · by_cases h2 : k'' = k
      · have h3 : ¬k' = k := fun he => h (h2.trans he.symm)
        have h4 : ¬k = k' := fun he => h3 he.symm
        simp [bump, h, lookupCount, h2, h3, h4]
      · simp [bump, h, lookupCount, h2, ih]

theorem lookupCount_foldl (k : String) (texts : List String) (m : List (String × Nat)) :
    lookupCount k (texts.foldl (fun m t => bump (canonicalKeyS t) m) m) =
      lookupCount k m + texts.countP (fun t => canonicalKeyS t == k) := by
  induction texts generalizing m with
  | nil => simp
  | cons t rest ih =>
    simp only [List.foldl_cons, ih, lookupCount_bump, List.countP_cons]
    by_cases h : canonicalKeyS t = k
    · simp [h]
      omega
    · simp [h]

/-- C3: for every input mapping from source identifier to entry sequence,
the counts of the aggregation result sum to the total number of error
entries across the participating sources. -/
theorem claim3_counts_sum (input : List (String × List (Nat × String))) :
    sumCounts (aggregate_errors input).1 = (allEntries input).length
    ∧ (allEntries input).length = (input.map (fun src => src.2.length)).sum := by
  constructor
  · have h1 : (aggregate_errors input).1 =
        sortDesc (aggSummary ((allEntries input).map Prod.snd)) := rfl
    rw [h1, sumCounts_sortDesc]
    unfold aggSummary
    rw [sumCounts_foldl]
    simp [sumCounts]
  · unfold allEntries
    rw [List.length_flatten]
    simp only [List.map_map]
    rfl

/-- C8: canonical-key derivation is a pure function of the entry's text
alone: the loop discards the line index, the whole aggregation result is
determined by the sequence of entry texts (so neither source identity nor
line indices influence it), and each key's recorded count is exactly the
number of participating texts mapping to that key. -/
theorem claim8_key_purity :
    (∀ (i j : Nat) (t : String), entryKey (i, t) = entryKey (j, t))
    ∧ (∀ input₁ input₂ : List (String × List (Nat × String)),
        (allEntries input₁).map Prod.snd = (allEntries input₂).map Prod.snd →
        aggregate_errors input₁ = aggregate_errors input₂)
    ∧ (∀ (input : List (String × List (Nat × String))) (k : String),
        lookupCount k (aggSummary ((allEntries input).map Prod.snd)) =
          ((allEntries input).map Prod.snd).countP (fun t => canonicalKeyS t == k)) := by
  refine ⟨fun i j t => rfl, fun input₁ input₂ h => ?_, fun input k => ?_⟩
  · simp only [aggregate_errors, h]
  · unfold aggSummary
    rw [lookupCount_foldl]
    simp [lookupCount]

/-- Witness for C8: two inputs with different source names and line
indices but the same texts aggregate identically. -/
theorem claim8_witness :
    aggregate_errors [("x.txt", [(0, "Error a"), (5, "b ERROR")])]
      = aggregate_errors [("y.txt", [(3, "Error a")]), ("z.txt", [(9, "b ERROR")])] :=
  claim8_key_purity.2.1 _ _ rfl

/-- C1: an error line whose lower-cased timestamp-stripped text contains a
Cytek register phrase receives that phrase's fixed label as canonical key
(the `if`/`elif` chain tests the three phrases in order, first match
wins), and the spec's example line receives the label
`"Cytek device readafpgaregister"`. -/
theorem claim1_domain_override (err : String) :
    (isSubstr phrase1 (lowerNoTime err.data) = true →
       canonicalKeyS err = "Cytek device readafpgaregister")
    ∧ (isSubstr phrase1 (lowerNoTime err.data) = false →
       isSubstr phrase2 (lowerNoTime err.data) = true →
       canonicalKeyS err = "Cytek device readmfpgaregisterrmt")
    ∧ (isSubstr phrase1 (lowerNoTime err.data) = false →
       isSubstr phrase2 (lowerNoTime err.data) = false →
       isSubstr phrase3 (lowerNoTime err.data) = true →
       canonicalKeyS err = "Cytek device writemfpgaregisterrmt")
    ∧ canonicalKeyS "2024-01-15 10:23:45 ERROR: Cytek device readAfpgaRegister failed at 0x4F"
        = "Cytek device readafpgaregister" := by
  refine ⟨fun h1 => ?_, fun h1 h2 => ?_, fun h1 h2 h3 => ?_, by decide⟩
  · have h1' : isSubstr phrase1 ((strip_timestamp (pyStrip err.data)).map Char.toLower) = true := h1
    unfold canonicalKeyS canonicalKey
    simp only [h1', if_true]
  · have h1' : isSubstr phrase1 ((strip_timestamp (pyStrip err.data)).map Char.toLower) = false := h1
    have h2' : isSubstr phrase2 ((strip_timestamp (pyStrip err.data)).map Char.toLower) = true := h2
    unfold canonicalKeyS canonicalKey
    simp only [h1', h2', Bool.false_eq_true, if_false, if_true]
  · have h1' : isSubstr phrase1 ((strip_timestamp (pyStrip err.data)).map Char.toLower) = false := h1
    have h2' : isSubstr phrase2 ((strip_timestamp (pyStrip err.data)).map Char.toLower) = false := h2
    have h3' : isSubstr phrase3 ((strip_timestamp (pyStrip err.data)).map Char.toLower) = true := h3
    unfold canonicalKeyS canonicalKey
    simp only [h1', h2', h3', Bool.false_eq_true, if_false, if_true]

/-- Witness for C1: the spec's example line contains the first phrase and
receives the first label. -/
theorem claim1_witness :
    isSubstr phrase1
        (lowerNoTime "2024-01-15 10:23:45 ERROR: Cytek device readAfpgaRegister failed at 0x4F".data) = true
    ∧ canonicalKeyS "2024-01-15 10:23:45 ERROR: Cytek device readAfpgaRegister failed at 0x4F"
        = "Cytek device readafpgaregister" :=
  ⟨by decide, (claim1_domain_override _).1 (by decide)⟩

/-- C2: when no domain override fires, the canonical key is the
timestamp-stripped text with the leading `error` unit removed
(`dropErrorLead`), then leading non-ASCII-letters removed
(`dropNonAlpha`), then the first character upper-cased (`upFirst`);
`"Error - pump stall detected"` yields `"Pump stall detected"`, and a
line that is exactly `"Error"` reduces to the empty key and forms its own
bucket with count 1 instead of being dropped. -/
theorem claim2_generic_prefix_key (err : String) :
    (isSubstr phrase1 (lowerNoTime err.data) = false →
     isSubstr phrase2 (lowerNoTime err.data) = false →
     isSubstr phrase3 (lowerNoTime err.data) = false →
       canonicalKeyS err =
         String.mk (upFirst (dropNonAlpha (dropErrorLead (strip_timestamp (pyStrip err.data))))))
    ∧ canonicalKeyS "Error - pump stall detected" = "Pump stall detected"
    ∧ aggregate_errors [("log.txt", [(0, "Error")])] = ([("", 1)], [("", "1 (100.0%)")]) := by
  refine ⟨fun h1 h2 h3 => ?_, by decide, by decide⟩
  have h1' : isSubstr phrase1 ((strip_timestamp (pyStrip err.data)).map Char.toLower) = false := h1
  have h2' : isSubstr phrase2 ((strip_timestamp (pyStrip err.data)).map Char.toLower) = false := h2
  have h3' : isSubstr phrase3 ((strip_timestamp (pyStrip err.data)).map Char.toLower) = false := h3
  unfold canonicalKeyS canonicalKey
  simp only [h1', h2', h3', Bool.false_eq_true, if_false]

/-- Witness for C2: the example line matches no override and its key is
exactly the generic derivation. -/
theorem claim2_witness :
    canonicalKeyS "Error - pump stall detected"
      = String.mk (upFirst (dropNonAlpha (dropErrorLead
          (strip_timestamp (pyStrip "Error - pump stall detected".data))))) :=
  (claim2_generic_prefix_key _).1 (by decide) (by decide) (by decide)

/-- C5: with a positive total, every key's display string is
`"<count> (<percentage to one decimal>%)"` where the percentage is
`100·count/total` computed as a binary64 double and formatted to one
decimal (`fmtPct`); with total zero the aggregator returns the empty
result pair; the spec's two-source example displays `"3 (75.0%)"` and
`"1 (25.0%)"` with the larger count ranked first; and at count 3 of
total 2000 the double below the exact `0.15` makes the display
`"3 (0.1%)"`. -/
theorem claim5_percentage_display (input : List (String × List (Nat × String))) :
    (0 < (allEntries input).length →
      (aggregate_errors input).2 =
        (aggregate_errors input).1.map (fun p => (p.1, fmtPct p.2 (allEntries input).length)))
    ∧ ((allEntries input).length = 0 → aggregate_errors input = ([], []))
    ∧ aggregate_errors
        [("a.txt", [(0, "Error: pump stall"), (1, "Error: pump stall"), (2, "Error: pump stall")]),
         ("b.txt", [(0, "Error: valve stuck")])]
        = ([("Pump stall", 3), ("Valve stuck", 1)],
           [("Pump stall", "3 (75.0%)"), ("Valve stuck", "1 (25.0%)")])
    ∧ fmtPct 3 2000 = "3 (0.1%)" := by
  refine ⟨fun h => ?_, fun h => ?_, by decide, by decide⟩
  · have h0 : ¬((allEntries input).map Prod.snd).length = 0 := by
      rw [List.length_map]; omega
    simp only [aggregate_errors, h0, if_false]
    rw [List.length_map]
  · have he : allEntries input = [] := List.length_eq_zero.mp h
    simp [aggregate_errors, he, aggSummary, sortDesc]

/-- Witness for C5: the percentage map of a concrete input with positive
total is the formatted view of its summary. -/
theorem claim5_witness :
    (aggregate_errors [("log.txt", [(0, "Error")])]).2 =
      (aggregate_errors [("log.txt", [(0, "Error")])]).1.map
        (fun p => (p.1, fmtPct p.2 (allEntries [("log.txt", [(0, "Error")])]).length)) :=
  (claim5_percentage_display _).1 (by decide)

/-! ### Lemmas about the stable descending sort -/

theorem mem_insertDesc {z x : String × Nat} {l : List (String × Nat)} :
    z ∈ insertDesc x l → z = x ∨ z ∈ l := by
  induction l with
  | nil => simp [insertDesc]
  | cons y r ih =>
    by_cases h : y.2 ≤ x.2
    · simp only [insertDesc, h, if_true, List.mem_cons]
      tauto
    · simp only [insertDesc, h, if_false, List.mem_cons]
      rintro (rfl | hz)
      · tauto
      · rcases ih hz with h' | h' <;> tauto

theorem pairwise_insertDesc (x : String × Nat) (l : List (String × Nat))
    (hl : l.Pairwise (fun a b => b.2 ≤ a.2)) :
    (insertDesc x l).Pairwise (fun a b => b.2 ≤ a.2) := by
  induction l with
  | nil => simp [insertDesc]
  | cons y r ih =>
    rcases List.pairwise_cons.mp hl with ⟨hy, hr⟩
    by_cases h : y.2 ≤ x.2
    · simp only [insertDesc, h, if_true]
      refine List.pairwise_cons.mpr ⟨?_, hl⟩
      intro z hz
      rcases List.mem_cons.mp hz with rfl | hz'
      · exact h
      · exact le_trans (hy z hz') h
    · simp only [insertDesc, h, if_false]
      refine List.pairwise_cons.mpr ⟨?_, ih hr⟩
      intro z hz
      rcases mem_insertDesc hz with rfl | hz'
      · omega
      · exact hy z hz'

theorem pairwise_sortDesc (l : List (String × Nat)) :
    (sortDesc l).Pairwise (fun a b => b.2 ≤ a.2) := by
  induction l with
  | nil => simp [sortDesc]
  | cons x r ih => exact pairwise_insertDesc x (sortDesc r) ih

theorem filter_insertDesc (x : String × Nat) (l : List (String × Nat)) (c : Nat) :
    (insertDesc x l).filter (fun p => p.2 == c) =
      (if x.2 == c then [x] else []) ++ l.filter (fun p => p.2 == c) := by
  induction l with
  | nil =>
    by_cases hx : x.2 == c <;> simp [insertDesc, List.filter, hx]
  | cons y r ih =>
    by_cases h : y.2 ≤ x.2
    · by_cases hx : x.2 == c <;> simp [insertDesc, h, List.filter_cons, hx]
    · simp only [insertDesc, h, if_false, List.filter_cons, ih]
      by_cases hy : y.2 == c
      · have hyc : y.2 = c := by simpa using hy
        have hxc : x.2 ≠ c := by omega
        simp [hy, hxc]
      · simp [hy]

theorem filter_sortDesc (l : List (String × Nat)) (c : Nat) :
    (sortDesc l).filter (fun p => p.2 == c) = l.filter (fun p => p.2 == c) := by
  induction l with
  | nil => rfl
  | cons x r ih =>
    simp only [sortDesc, filter_insertDesc, ih, List.filter_cons]
    by_cases hx : x.2 == c <;> simp [hx]

theorem bump_map_fst (k : String) (m : List (String × Nat)) :
    (bump k m).map Prod.fst =
      if k ∈ m.map Prod.fst then m.map Prod.fst else m.map Prod.fst ++ [k] := by
  induction m with
  | nil => simp [bump]
  | cons p rest ih =>
    obtain ⟨k', v⟩ := p
    by_cases h : k' = k
    · subst h
      simp [bump]
    · have h' : ¬k = k' := fun he => h he.symm
      simp only [bump, h, if_false, List.map_cons, ih, List.mem_cons]
      by_cases hk : k ∈ rest.map Prod.fst
      · simp [hk, h']
      · simp [hk, h']

theorem foldl_bump_map_fst (keys : List String) (m : List (String × Nat)) :
    ((keys.foldl (fun m k => bump k m) m)).map Prod.fst =
      m.map Prod.fst ++ firstKeys (keys.filter (fun k => k ∉ m.map Prod.fst)) := by
  induction keys generalizing m with
  | nil => simp [firstKeys]
  | cons k ks ih =>
    simp only [List.foldl_cons, List.filter_cons]
    by_cases hk : k ∈ m.map Prod.fst
    · have h1 : (bump k m).map Prod.fst = m.map Prod.fst := by
        rw [bump_map_fst, if_pos hk]
      have h2 : (decide (k ∉ m.map Prod.fst)) = false := by simp [hk]
      rw [ih, h1, h2]
      simp
    · have h1 : (bump k m).map Prod.fst = m.map Prod.fst ++ [k] := by
        rw [bump_map_fst, if_neg hk]
      have h2 : (decide (k ∉ m.map Prod.fst)) = true := by simp [hk]
      rw [ih, h1, h2, if_pos rfl]
      simp only [firstKeys, List.filter_filter, List.append_assoc, List.singleton_append]
      congr 3
      apply List.filter_congr
      intro a _
      by_cases ha : a ∈ m.map Prod.fst
      · simp [ha]
      · by_cases hak : a = k <;> simp [ha, hak]

/-- C4: the displayed sequence is sorted by descending count; among equal
counts the relative order is that of the pre-sort summary, whose keys are
in order of first encounter; and re-running the aggregation on the same
input yields the identical result (the model is a pure function). -/
theorem claim4_ranking (input : List (String × List (Nat × String))) :
    ((aggregate_errors input).1.Pairwise (fun a b => b.2 ≤ a.2))
    ∧ (∀ c : Nat,
        (aggregate_errors input).1.filter (fun p => p.2 == c) =
          (aggSummary ((allEntries input).map Prod.snd)).filter (fun p => p.2 == c))
    ∧ (aggSummary ((allEntries input).map Prod.snd)).map Prod.fst =
        firstKeys (((allEntries input).map Prod.snd).map canonicalKeyS)
    ∧ aggregate_errors input = aggregate_errors input := by
  have hfst : (aggregate_errors input).1 =
      sortDesc (aggSummary ((allEntries input).map Prod.snd)) := rfl
  refine ⟨?_, fun c => ?_, ?_, rfl⟩
  · rw [hfst]
    exact pairwise_sortDesc _
  · rw [hfst, filter_sortDesc]
  · unfold aggSummary
    rw [← List.foldl_map canonicalKeyS (fun m k => bump k m), foldl_bump_map_fst]
    simp

/-! ### The error detector -/

theorem detectErrors_eq_filterMap (n : Nat) (lines : List String) :
    detectErrors n lines =
      (List.enumFrom n lines).filterMap
        (fun p => if hasErrorCI p.2 then some (p.1, rstripNl p.2) else none) := by
  induction lines generalizing n with
  | nil => rfl
  | cons l rest ih =>
    simp only [detectErrors, List.enumFrom, List.filterMap_cons]
    by_cases h : hasErrorCI l
    · simp [h, ih]
    · simp [h, ih]

theorem detectErrors_indices (n : Nat) (lines : List String) :
    (∀ e ∈ detectErrors n lines, n ≤ e.1)
    ∧ (detectErrors n lines).Pairwise (fun a b => a.1 < b.1) := by
  induction lines generalizing n with
  | nil => simp [detectErrors]
  | cons l rest ih =>
    by_cases h : hasErrorCI l
    · simp only [detectErrors, h, if_true]
      constructor
      · intro e he
        rcases List.mem_cons.mp he with rfl | he'
        · exact le_refl n
        · exact le_trans (Nat.le_succ n) ((ih (n + 1)).1 e he')
      · refine List.pairwise_cons.mpr ⟨?_, (ih (n + 1)).2⟩
        intro e he
        exact lt_of_lt_of_le (Nat.lt_succ_self n) ((ih (n + 1)).1 e he)
    · simp only [detectErrors, h, if_false]
      refine ⟨fun e he => le_trans (Nat.le_succ n) ((ih (n + 1)).1 e he), (ih (n + 1)).2⟩

theorem mem_enumFrom_of_get? (lines : List String) :
    ∀ (n i : Nat) (l : String), lines.get? i = some l →
      (n + i, l) ∈ List.enumFrom n lines := by
  induction lines with
  | nil => intro n i l h; simp [List.get?] at h
  | cons x rest ih =>
    intro n i l h
    match i with
    | 0 =>
      simp only [List.get?] at h
      injection h with h
      simp [List.enumFrom, h]
    | i' + 1 =>
      simp only [List.get?] at h
      have := ih (n + 1) i' l h
      simp only [List.enumFrom, List.mem_cons]
      right
      have harith : n + 1 + i' = n + (i' + 1) := by omega
      rwa [harith] at this

/-- C6: the detection loop returns, in original order, exactly the pairs
`(zero-based index, line with trailing newlines stripped)` for the lines
containing `"error"` case-insensitively — it equals the filter of the
enumerated lines by the single substring test, its indices are strictly
increasing, and every qualifying line contributes its entry. -/
theorem claim6_error_detector (lines : List String) :
    detectErrors 0 lines =
      (lines.enum).filterMap
        (fun p => if hasErrorCI p.2 then some (p.1, rstripNl p.2) else none)
    ∧ (detectErrors 0 lines).Pairwise (fun a b => a.1 < b.1)
    ∧ (∀ (i : Nat) (l : String), lines.get? i = some l → hasErrorCI l = true →
        (i, rstripNl l) ∈ detectErrors 0 lines) := by
  refine ⟨by rw [detectErrors_eq_filterMap]; rfl, (detectErrors_indices 0 lines).2,
    fun i l h1 h2 => ?_⟩
  rw [detectErrors_eq_filterMap]
  apply List.mem_filterMap.mpr
  refine ⟨(i, l), ?_, by simp [h2]⟩
  have := mem_enumFrom_of_get? lines 0 i l h1
  simpa [List.enum] using this

/-! ### Shape of the normalizer's output

The final two collapsing passes and the trailing `strip()` force the
shape of every `strip_timestamp` result: all remaining `cls8` characters
are single interior spaces, no two adjacent characters are both `cls8`
(hence no double whitespace and no residual `:-[],.`), no two adjacent
characters are both `cls7` (hence no residual punctuation runs), and the
ends carry no whitespace. -/

theorem collapse8Go_head (l : List Char) :
    ∀ (inRun : Bool) (x : Char), (collapse8Go inRun l).head? = some x →
      cls8 x = false ∨ (inRun = false ∧ x = ' ') := by
  induction l with
  | nil => intro inRun x h; simp [collapse8Go] at h
  | cons c cs ih =>
    intro inRun x h
    by_cases h8 : cls8 c
    · cases inRun with
      | true =>
        simp only [collapse8Go, h8, if_true, List.nil_append] at h
        rcases ih true x h with h' | h'
        · exact Or.inl h'
        · exact absurd h'.1 (by simp)
      | false =>
        simp only [collapse8Go, h8, if_true, List.singleton_append, List.head?_cons] at h
        injection h with h
        exact Or.inr ⟨rfl, h.symm⟩
    · simp only [collapse8Go, h8, if_false, List.head?_cons] at h
      injection h with h
      subst h
      exact Or.inl (by simpa using h8)

theorem collapse8Go_head_false (m : List Char) (x : Char) :
    (collapse8Go false m).head? = some x → x = ' ' ∨ m.head? = some x := by
  cases m with
  | nil => intro h; simp [collapse8Go] at h
  | cons c cs =>
    by_cases h8 : cls8 c
    · simp only [collapse8Go, h8, if_true, List.singleton_append, List.head?_cons]
      intro h
      injection h with h
      exact Or.inl h.symm
    · simp only [collapse8Go, h8, if_false, List.head?_cons]
      intro h
      exact Or.inr h

theorem collapse8Go_mem (l : List Char) :
    ∀ (inRun : Bool) (c : Char), c ∈ collapse8Go inRun l → cls8 c = true → c = ' ' := by
  induction l with
  | nil => intro inRun c h; simp [collapse8Go] at h
  | cons a cs ih =>
    intro inRun c h h8
    by_cases ha : cls8 a
    · simp only [collapse8Go, ha, if_true, List.mem_append] at h
      rcases h with h | h
      · cases inRun <;> simp_all
      · exact ih true c h h8
    · simp only [collapse8Go, ha, Bool.false_eq_true, if_false, List.mem_cons] at h
      rcases h with hca | hmem
      · subst hca
        exact absurd h8 (by simpa using ha)
      · exact ih false c hmem h8

theorem collapse8Go_chain (l : List Char) :
    ∀ inRun : Bool, List.Chain' (fun a b => ¬(cls8 a = true ∧ cls8 b = true))
      (collapse8Go inRun l) := by
  induction l with
  | nil => intro inRun; simp [collapse8Go]
  | cons c cs ih =>
    intro inRun
    by_cases h8 : cls8 c
    · cases inRun with
      | true => simpa [collapse8Go, h8] using ih true
      | false =>
        simp only [collapse8Go, h8, if_true, List.singleton_append]
        refine List.chain'_cons'.mpr ⟨?_, ih true⟩
        intro b hb
        rcases collapse8Go_head cs true b hb with h' | h'
        · simp [h']
        · exact absurd h'.1 (by simp)
    · simp only [collapse8Go, h8, if_false]
      refine List.chain'_cons'.mpr ⟨?_, ih false⟩
      intro b _
      simp [show cls8 c = false by simpa using h8]

theorem collapse8Go_noAdj7 (l : List Char) :
    ∀ inRun : Bool,
      List.Chain' (fun a b => ¬(cls7 a = true ∧ cls7 b = true)) l →
      List.Chain' (fun a b => ¬(cls7 a = true ∧ cls7 b = true)) (collapse8Go inRun l) := by
  induction l with
  | nil => intro inRun _; simp [collapse8Go]
  | cons c cs ih =>
    intro inRun h
    have htail := (List.chain'_cons'.mp h).2
    by_cases h8 : cls8 c
    · cases inRun with
      | true => simpa [collapse8Go, h8] using ih true htail
      | false =>
        simp only [collapse8Go, h8, if_true, List.singleton_append]
        refine List.chain'_cons'.mpr ⟨?_, ih true htail⟩
        intro b _
        simp [show cls7 ' ' = false by decide]
    · simp only [collapse8Go, h8, if_false]
      refine List.chain'_cons'.mpr ⟨?_, ih false htail⟩
      intro b hb
      rcases collapse8Go_head_false cs b hb with h' | h'
      · subst h'
        simp [show cls7 ' ' = false by decide]
      · exact (List.chain'_cons'.mp h).1 b h'

theorem collapse7Go_head_false (m : List Char) (x : Char) :
    (collapse7Go false m).head? = some x → x = ' ' ∨ m.head? = some x := by
  match m with
  | [] => intro h; simp [collapse7Go] at h
  | [c] =>
    intro h
    simp only [collapse7Go, List.head?_cons] at h
    exact Or.inr h
  | a :: b :: r =>
    by_cases hab : cls7 a && cls7 b
    · simp only [collapse7Go, hab, if_true, List.head?_cons]
      intro h
      injection h with h
      exact Or.inl h.symm
    · simp only [collapse7Go, hab, if_false, List.head?_cons]
      intro h
      exact Or.inr h

theorem collapse7Go_chain :
    ∀ (n : Nat) (st : Bool) (l : List Char), l.length ≤ n →
      List.Chain' (fun a b => ¬(cls7 a = true ∧ cls7 b = true)) (collapse7Go st l) := by
  intro n
  induction n with
  | zero =>
    intro st l hl
    have : l = [] := List.length_eq_zero.mp (Nat.le_zero.mp hl)
    subst this
    simp [collapse7Go]
  | succ n ih =>
    intro st l hl
    cases st with
    | true =>
      match l with
      | [] => simp [collapse7Go]
      | c :: cs =>
        by_cases hc : cls7 c
        · simpa [collapse7Go, hc] using ih true cs (by simpa using Nat.le_of_succ_le_succ hl)
        · simp only [collapse7Go, hc, if_false]
          refine List.chain'_cons'.mpr ⟨?_, ih false cs (by simpa using Nat.le_of_succ_le_succ hl)⟩
          intro b _
          simp [show cls7 c = false by simpa using hc]
    | false =>
      match l with
      | [] => simp [collapse7Go]
      | [c] => simp [collapse7Go]
      | a :: b :: r =>
        have hr : (b :: r).length ≤ n := by
          simp only [List.length_cons] at hl ⊢
          omega
        by_cases hab : cls7 a && cls7 b
        · simp only [collapse7Go, hab, if_true]
          refine List.chain'_cons'.mpr ⟨?_, ih true r (by simp only [List.length_cons] at hl; omega)⟩
          intro x _
          simp [show cls7 ' ' = false by decide]
        · simp only [collapse7Go, hab, if_false]
          refine List.chain'_cons'.mpr ⟨?_, ih false (b :: r) hr⟩
          intro x hx
          rcases collapse7Go_head_false (b :: r) x hx with rfl | h'
          · simp [show cls7 ' ' = false by decide]
          · simp only [List.head?_cons] at h'
            injection h' with h'
            subst h'
            intro hcon
            simp only [Bool.and_eq_true] at hab
            exact hab ⟨hcon.1, hcon.2⟩

theorem mem_dropWhile_sub (p : Char → Bool) (l : List Char) :
    ∀ x ∈ l.dropWhile p, x ∈ l := by
  induction l with
  | nil => simp [List.dropWhile]
  | cons c cs ih =>
    intro x hx
    by_cases h : p c
    · simp only [List.dropWhile, h, if_true] at hx
      exact List.mem_cons_of_mem c (ih x hx)
    · simp only [List.dropWhile, h] at hx
      simpa using hx

theorem head_dropWhile_not (p : Char → Bool) (l : List Char) :
    ∀ x, (l.dropWhile p).head? = some x → p x = false := by
  induction l with
  | nil => intro x h; simp [List.dropWhile] at h
  | cons c cs ih =>
    intro x h
    by_cases hc : p c
    · simp only [List.dropWhile, hc, if_true] at h
      exact ih x h
    · simp only [List.dropWhile, hc, List.head?_cons] at h
      injection h with h
      subst h
      simpa using hc

theorem chain'_dropWhile (R : Char → Char → Prop) (p : Char → Bool) (l : List Char)
    (h : List.Chain' R l) : List.Chain' R (l.dropWhile p) := by
  induction l with
  | nil => simpa [List.dropWhile] using h
  | cons c cs ih =>
    by_cases hc : p c
    · simp only [List.dropWhile, hc, if_true]
      exact ih (List.chain'_cons'.mp h).2
    · simp only [List.dropWhile, hc, Bool.false_eq_true, if_false]
      exact h

theorem getLast?_dropWhile_of_some (p : Char → Bool) (l : List Char) (x : Char) :
    (l.dropWhile p).getLast? = some x → l.getLast? = some x := by
  induction l with
  | nil => simp [List.dropWhile]
  | cons c cs ih =>
    by_cases h : p c
    · simp only [List.dropWhile, h, if_true]
      intro hx
      have hcs := ih hx
      cases cs with
      | nil => simp [List.dropWhile] at hx
      | cons d ds =>
        rw [List.getLast?_cons_cons]
        exact hcs
    · intro hx
      simpa [List.dropWhile, h] using hx

theorem pyStrip_mem (l : List Char) : ∀ x ∈ pyStrip l, x ∈ l := by
  intro x hx
  unfold pyStrip at hx
  have h1 := mem_dropWhile_sub _ _ x hx
  rw [List.mem_reverse] at h1
  have h2 := mem_dropWhile_sub _ _ x h1
  rwa [List.mem_reverse] at h2

theorem pyStrip_chain (R : Char → Char → Prop) (_hsymm : ∀ a b, R a b → R b a)
    (l : List Char) (h : List.Chain' R l) : List.Chain' R (pyStrip l) := by
  unfold pyStrip
  apply chain'_dropWhile
  rw [List.chain'_reverse]
  apply chain'_dropWhile
  rw [List.chain'_reverse]
  exact h.imp (fun a b hab => hab)

theorem pyStrip_head (l : List Char) :
    ∀ x, (pyStrip l).head? = some x → isPySpace x = false := by
  intro x hx
  exact head_dropWhile_not _ _ x hx

theorem pyStrip_getLast (l : List Char) :
    ∀ x, (pyStrip l).getLast? = some x → isPySpace x = false := by
  intro x hx
  unfold pyStrip at hx
  have h1 := getLast?_dropWhile_of_some _ _ _ hx
  rw [List.getLast?_reverse] at h1
  exact head_dropWhile_not _ _ x h1

theorem collapse7Go_chain' (st : Bool) (l : List Char) :
    List.Chain' (fun a b => ¬(cls7 a = true ∧ cls7 b = true)) (collapse7Go st l) :=
  collapse7Go_chain l.length st l le_rfl

theorem pipeline_shape (X : List Char) :
    (∀ c ∈ pyStrip (collapse8Go false (collapse7Go false X)), cls8 c = true → c = ' ')
    ∧ List.Chain' (fun a b => ¬(cls8 a = true ∧ cls8 b = true))
        (pyStrip (collapse8Go false (collapse7Go false X)))
    ∧ List.Chain' (fun a b => ¬(cls7 a = true ∧ cls7 b = true))
        (pyStrip (collapse8Go false (collapse7Go false X)))
    ∧ (∀ x, (pyStrip (collapse8Go false (collapse7Go false X))).head? = some x →
        isPySpace x = false)
    ∧ (∀ x, (pyStrip (collapse8Go false (collapse7Go false X))).getLast? = some x →
        isPySpace x = false) := by
  refine ⟨?_, ?_, ?_, pyStrip_head _, pyStrip_getLast _⟩
  · intro c hc h8
    exact collapse8Go_mem _ false c (pyStrip_mem _ c hc) h8
  · exact pyStrip_chain _ (fun a b hab hc => hab ⟨hc.2, hc.1⟩) _ (collapse8Go_chain _ false)
  · exact pyStrip_chain _ (fun a b hab hc => hab ⟨hc.2, hc.1⟩) _
      (collapse8Go_noAdj7 _ false (collapse7Go_chain' false _))

/-- The shape invariant of every `strip_timestamp` output: `cls8`
characters are only single interior spaces, no two adjacent characters
are both `cls8` or both `cls7`, and neither end is whitespace. -/
theorem strip_timestamp_shape (s : List Char) :
    (∀ c ∈ strip_timestamp s, cls8 c = true → c = ' ')
    ∧ List.Chain' (fun a b => ¬(cls8 a = true ∧ cls8 b = true)) (strip_timestamp s)
    ∧ List.Chain' (fun a b => ¬(cls7 a = true ∧ cls7 b = true)) (strip_timestamp s)
    ∧ (∀ x, (strip_timestamp s).head? = some x → isPySpace x = false)
    ∧ (∀ x, (strip_timestamp s).getLast? = some x → isPySpace x = false) :=
  pipeline_shape
    (reSub pat6 [] (reSub pat5 [] (reSub pat4 []
      (reSub pat3 [] (reSub pat2 [] (reSub pat1 [] s))))))

/-! ### When a second normalization changes nothing -/

theorem reSubGo_id (re : RE) (repl s : List Char)
    (h : ∀ i, i < s.length → (re s i).head? = none) :
    ∀ (fuel i : Nat), reSubGo re repl s fuel i = s.drop i := by
  intro fuel
  induction fuel with
  | zero => intro i; rfl
  | succ fuel ih =>
    intro i
    by_cases hi : i < s.length
    · simp only [reSubGo, hi, if_true, h i hi, ih]
      rw [List.drop_eq_getElem_cons hi]
      congr 1
      exact List.getD_eq_getElem s ' ' hi
    · simp only [reSubGo, hi, if_false]
      exact (List.drop_eq_nil_of_le (Nat.le_of_not_lt hi)).symm

theorem reSub_id (re : RE) (repl s : List Char)
    (h : ∀ i, i < s.length → (re s i).head? = none) :
    reSub re repl s = s := by
  unfold reSub
  rw [reSubGo_id re repl s h]
  exact List.drop_zero s

theorem dropWhile_eq_self_of_head (p : Char → Bool) (l : List Char)
    (h : ∀ x, l.head? = some x → p x = false) : l.dropWhile p = l := by
  cases l with
  | nil => rfl
  | cons c cs =>
    have := h c rfl
    simp [List.dropWhile, this]

theorem pyStrip_eq_self (l : List Char)
    (hh : ∀ x, l.head? = some x → isPySpace x = false)
    (hl : ∀ x, l.getLast? = some x → isPySpace x = false) : pyStrip l = l := by
  unfold pyStrip
  have h1 : l.reverse.dropWhile isPySpace = l.reverse := by
    apply dropWhile_eq_self_of_head
    intro x hx
    rw [List.head?_reverse] at hx
    exact hl x hx
  rw [h1, List.reverse_reverse]
  exact dropWhile_eq_self_of_head _ _ hh

theorem collapse7Go_eq_self :
    ∀ (n : Nat) (l : List Char), l.length ≤ n →
      List.Chain' (fun a b => ¬(cls7 a = true ∧ cls7 b = true)) l →
      collapse7Go false l = l := by
  intro n
  induction n with
  | zero =>
    intro l hl _
    have : l = [] := List.length_eq_zero.mp (Nat.le_zero.mp hl)
    subst this
    rfl
  | succ n ih =>
    intro l hl hch
    match l with
    | [] => rfl
    | [c] => rfl
    | a :: b :: r =>
      have hab : (cls7 a && cls7 b) = false := by
        have := (List.chain'_cons'.mp hch).1 b rfl
        cases h7a : cls7 a <;> cases h7b : cls7 b <;> simp_all
      simp only [collapse7Go, hab, Bool.false_eq_true, if_false]
      congr 1
      apply ih (b :: r) (by simp only [List.length_cons] at hl ⊢; omega)
      exact (List.chain'_cons'.mp hch).2

theorem collapse8Go_eq_self (l : List Char)
    (hmem : ∀ c ∈ l, cls8 c = true → c = ' ')
    (hch : List.Chain' (fun a b => ¬(cls8 a = true ∧ cls8 b = true)) l) :
    collapse8Go false l = l := by
  induction l with
  | nil => rfl
  | cons c cs ih =>
    by_cases h8 : cls8 c
    · have hcsp : c = ' ' := hmem c (List.mem_cons_self c cs) (by simpa using h8)
      have htail : collapse8Go false cs = cs :=
        ih (fun x hx h => hmem x (List.mem_cons_of_mem c hx) h) (List.chain'_cons'.mp hch).2
      have hgotrue : collapse8Go true cs = cs := by
        cases cs with
        | nil => rfl
        | cons d ds =>
          have hd : cls8 d = false := by
            have := (List.chain'_cons'.mp hch).1 d rfl
            cases hdd : cls8 d
            · rfl
            · exact absurd ⟨by simpa using h8, hdd⟩ this
          simp only [collapse8Go, hd, Bool.false_eq_true, if_false] at htail ⊢
          exact htail
      simp only [collapse8Go, h8, if_true, List.singleton_append, hgotrue, hcsp]
      simp [show cls8 ' ' = true by decide]
    · have htail : collapse8Go false cs = cs :=
        ih (fun x hx h => hmem x (List.mem_cons_of_mem c hx) h) (List.chain'_cons'.mp hch).2
      simp only [collapse8Go, h8, Bool.false_eq_true, if_false, htail]

theorem collapse7_eq_self (l : List Char)
    (h : List.Chain' (fun a b => ¬(cls7 a = true ∧ cls7 b = true)) l) :
    collapse7 l = l :=
  collapse7Go_eq_self l.length l le_rfl h

theorem collapse8_eq_self (l : List Char)
    (hmem : ∀ c ∈ l, cls8 c = true → c = ' ')
    (hch : List.Chain' (fun a b => ¬(cls8 a = true ∧ cls8 b = true)) l) :
    collapse8 l = l :=
  collapse8Go_eq_self l hmem hch

/-- Lemma: `String.mk` and `String.data` are inverse views of a string. -/
theorem data_mk (l : List Char) : (String.mk l).data = l := rfl

/-- A text of the shape `strip_timestamp` guarantees, containing no
match of the six date/time patterns, is a fixed point of the
normalizer. -/
theorem strip_fixed_core (t : List Char)
    (hmem : ∀ c ∈ t, cls8 c = true → c = ' ')
    (hch8 : List.Chain' (fun a b => ¬(cls8 a = true ∧ cls8 b = true)) t)
    (hch7 : List.Chain' (fun a b => ¬(cls7 a = true ∧ cls7 b = true)) t)
    (hhead : ∀ x, t.head? = some x → isPySpace x = false)
    (hlast : ∀ x, t.getLast? = some x → isPySpace x = false)
    (h1 : ∀ i, i < t.length → (pat1 t i).head? = none)
    (h2 : ∀ i, i < t.length → (pat2 t i).head? = none)
    (h3 : ∀ i, i < t.length → (pat3 t i).head? = none)
    (h4 : ∀ i, i < t.length → (pat4 t i).head? = none)
    (h5 : ∀ i, i < t.length → (pat5 t i).head? = none)
    (h6 : ∀ i, i < t.length → (pat6 t i).head? = none) :
    strip_timestamp t = t := by
  unfold strip_timestamp
  rw [reSub_id pat1 [] t h1, reSub_id pat2 [] t h2, reSub_id pat3 [] t h3,
    reSub_id pat4 [] t h4, reSub_id pat5 [] t h5, reSub_id pat6 [] t h6,
    collapse7_eq_self t hch7, collapse8_eq_self t hmem hch8]
  exact pyStrip_eq_self t hhead hlast

set_option linter.constructorNameAsVariable false in
/-- A normalized text with no residual match of the six date/time
patterns is a fixed point of the normalizer. -/
theorem strip_timestamp_fixed (u : List Char)
    (h1 : ∀ i, i < (strip_timestamp u).length → (pat1 (strip_timestamp u) i).head? = none)
    (h2 : ∀ i, i < (strip_timestamp u).length → (pat2 (strip_timestamp u) i).head? = none)
    (h3 : ∀ i, i < (strip_timestamp u).length → (pat3 (strip_timestamp u) i).head? = none)
    (h4 : ∀ i, i < (strip_timestamp u).length → (pat4 (strip_timestamp u) i).head? = none)
    (h5 : ∀ i, i < (strip_timestamp u).length → (pat5 (strip_timestamp u) i).head? = none)
    (h6 : ∀ i, i < (strip_timestamp u).length → (pat6 (strip_timestamp u) i).head? = none) :
    strip_timestamp (strip_timestamp u) = strip_timestamp u := by
  obtain ⟨hmem, hch8, hch7, hhead, hlast⟩ := strip_timestamp_shape u
  generalize hgen : strip_timestamp u = t at h1 h2 h3 h4 h5 h6 hmem hch8 hch7 hhead hlast ⊢
  exact strip_fixed_core t hmem hch8 hch7 hhead hlast h1 h2 h3 h4 h5 h6

/-- C7 (counterexample): the normalizer is not idempotent.  For the input
`"5/6/1:23 78"` the first pass removes the clock time `1:23 ` and leaves
`"5/6/78"`, which a second pass matches as a slash-separated date and
removes entirely. -/
theorem claim7_counterexample :
    stripTimestampS (stripTimestampS "5/6/1:23 78") ≠ stripTimestampS "5/6/1:23 78" := by
  decide

/-- C7 (amended): normalizing a second time yields the same string
provided the once-normalized text contains no residual match of any of
the six date/time patterns (the punctuation-collapsing passes and the
final strip are always idempotent on normalizer output, by its shape
invariant). -/
theorem claim7_amended (s : String)
    (h1 : ∀ i, i < (stripTimestampS s).data.length →
      (pat1 (stripTimestampS s).data i).head? = none)
    (h2 : ∀ i, i < (stripTimestampS s).data.length →
      (pat2 (stripTimestampS s).data i).head? = none)
    (h3 : ∀ i, i < (stripTimestampS s).data.length →
      (pat3 (stripTimestampS s).data i).head? = none)
    (h4 : ∀ i, i < (stripTimestampS s).data.length →
      (pat4 (stripTimestampS s).data i).head? = none)
    (h5 : ∀ i, i < (stripTimestampS s).data.length →
      (pat5 (stripTimestampS s).data i).head? = none)
    (h6 : ∀ i, i < (stripTimestampS s).data.length →
      (pat6 (stripTimestampS s).data i).head? = none) :
    stripTimestampS (stripTimestampS s) = stripTimestampS s := by
  simp only [stripTimestampS, data_mk] at h1 h2 h3 h4 h5 h6 ⊢
  exact congrArg String.mk (strip_timestamp_fixed s.data h1 h2 h3 h4 h5 h6)

/-- Witness for the amended C7: a normalized line with no residual
date/time match is a fixed point of the normalizer. -/
theorem claim7_witness :
    stripTimestampS (stripTimestampS "Error: pump stall at low pressure")
      = stripTimestampS "Error: pump stall at low pressure" :=
  claim7_amended _ (by decide) (by decide) (by decide) (by decide) (by decide) (by decide)

set_option linter.constructorNameAsVariable false in
/-- C10: every normalizer output is free of colons, dashes, square
brackets, commas and periods, has no two adjacent whitespace characters,
and has no leading or trailing whitespace; forward slashes, however, can
survive (`"a/b"` is returned unchanged). -/
theorem claim10_normalized_shape (s : String) :
    (∀ c ∈ (stripTimestampS s).data,
      (c = ':' ∨ c = '-' ∨ c = '[' ∨ c = ']' ∨ c = ',' ∨ c = '.') → False)
    ∧ List.Chain' (fun a b => ¬(isPySpace a = true ∧ isPySpace b = true))
        (stripTimestampS s).data
    ∧ (∀ x, (stripTimestampS s).data.head? = some x → isPySpace x = false)
    ∧ (∀ x, (stripTimestampS s).data.getLast? = some x → isPySpace x = false)
    ∧ stripTimestampS "a/b" = "a/b" := by
  obtain ⟨hmem, hch8, hch7, hhead, hlast⟩ := strip_timestamp_shape s.data
  simp only [stripTimestampS, data_mk]
  generalize hgen : strip_timestamp s.data = t at hmem hch8 hch7 hhead hlast ⊢
  refine ⟨?_, ?_, hhead, hlast, by decide⟩
  · intro c hc hcase
    have h8 : cls8 c = true := by
      rcases hcase with rfl | rfl | rfl | rfl | rfl | rfl <;> decide
    have hsp := hmem c hc h8
    rcases hcase with rfl | rfl | rfl | rfl | rfl | rfl <;> exact absurd hsp (by decide)
  · refine hch8.imp ?_
    intro a b hab hsp
    refine hab ⟨?_, ?_⟩
    · simp [cls8, hsp.1]
    · simp [cls8, hsp.2]

/-- Witness for C10: on a concrete input the returned head and last
characters are non-whitespace. -/
theorem claim10_witness :
    isPySpace 'E' = false ∧ isPySpace 'x' = false :=
  ⟨(claim10_normalized_shape "  Error:  pump x  ").2.2.1 'E' (by decide),
   (claim10_normalized_shape "  Error:  pump x  ").2.2.2.1 'x' (by decide)⟩

/-! ### The line reader: decoding and splitting -/

theorem utf8_agree_aux :
    ∀ (n : Nat) (l : List Nat), l.length ≤ n →
      ∀ cs, utf8Strict l = some cs → utf8Ignore l = cs := by
  intro n
  induction n with
  | zero =>
    intro l hl cs h
    have : l = [] := List.length_eq_zero.mp (Nat.le_zero.mp hl)
    subst this
    simp only [utf8Strict] at h
    injection h with h
    simp [utf8Ignore, h]
  | succ n ih =>
    intro l hl cs h
    match l with
    | [] =>
      simp only [utf8Strict] at h
      injection h with h
      simp [utf8Ignore, h]
    | b :: rest =>
      by_cases hb : b < 0x80
      · simp only [utf8Strict, hb, if_true, Option.map_eq_some'] at h
        obtain ⟨cs', hcs', rfl⟩ := h
        simp only [utf8Ignore, hb, if_true]
        rw [ih rest (by simpa using Nat.le_of_succ_le_succ hl) cs' hcs']
      · rcases hmb : decodeMB b rest with _ | ⟨v, k⟩
        · simp only [utf8Strict, hb, if_false, hmb] at h
          exact absurd h (by simp)
        · simp only [utf8Strict, hb, if_false, hmb, Option.map_eq_some'] at h
          obtain ⟨cs', hcs', rfl⟩ := h
          simp only [utf8Ignore, hb, if_false, hmb]
          have hlen : (rest.drop k).length ≤ n := by
            rw [List.length_drop]
            simp only [List.length_cons] at hl
            omega
          rw [ih (rest.drop k) hlen cs' hcs']

theorem toNat_charOfNat_of_valid (n : Nat) (h : n.isValidChar) :
    (Char.ofNat n).toNat = n := by
  simp only [Char.ofNat, h, dif_pos, Char.ofNatAux, Char.toNat, UInt32.toNat]
  simp

theorem toNat_charOfNat_invalid (n : Nat) (h : ¬n.isValidChar) :
    (Char.ofNat n).toNat = 0 := by
  simp only [Char.ofNat, h, dif_neg, Char.toNat, UInt32.toNat]
  simp

theorem charOfNat_ne_newline (n : Nat) (h : 128 ≤ n) : Char.ofNat n ≠ '\n' := by
  intro he
  have h10 : (Char.ofNat n).toNat = 10 := by rw [he]; decide
  by_cases hv : n.isValidChar
  · rw [toNat_charOfNat_of_valid n hv] at h10
    omega
  · rw [toNat_charOfNat_invalid n hv] at h10
    exact absurd h10 (by decide)

theorem charOfNat_eq_newline_small (n : Nat) (h : n < 128) :
    Char.ofNat n = '\n' → n = 10 := by
  intro he
  have hv : n.isValidChar := Or.inl (by omega)
  have h10 : (Char.ofNat n).toNat = 10 := by rw [he]; decide
  rw [toNat_charOfNat_of_valid n hv] at h10
  exact h10

theorem decodeMB_bounds {b : Nat} {rest : List Nat} {v k : Nat}
    (h : decodeMB b rest = some (v, k)) : 128 ≤ v ∧ k ≤ rest.length := by
  unfold decodeMB at h
  by_cases h2 : (0xC2 ≤ b && b ≤ 0xDF) = true
  · rw [if_pos h2] at h
    rcases rest with _ | ⟨c, r⟩
    · exact absurd h (by simp)
    · dsimp only at h
      by_cases hc : contB c = true
      · rw [if_pos hc] at h
        simp only [Option.some.injEq, Prod.mk.injEq] at h
        obtain ⟨hv, hk⟩ := h
        simp only [contB, Bool.and_eq_true, decide_eq_true_eq] at hc h2
        simp only [List.length_cons]
        omega
      · rw [if_neg hc] at h
        exact absurd h (by simp)
  · rw [if_neg h2] at h
    by_cases h3 : (0xE0 ≤ b && b ≤ 0xEF) = true
    · rw [if_pos h3] at h
      rcases rest with _ | ⟨c, _ | ⟨d, r⟩⟩
      · exact absurd h (by simp)
      · exact absurd h (by simp)
      · dsimp only at h
        by_cases hcd : (sndOK3 b c && contB d) = true
        · rw [if_pos hcd] at h
          simp only [Option.some.injEq, Prod.mk.injEq] at h
          obtain ⟨hv, hk⟩ := h
          simp only [Bool.and_eq_true] at hcd h3
          obtain ⟨hsc, hd⟩ := hcd
          simp only [decide_eq_true_eq] at h3
          simp only [contB, Bool.and_eq_true, decide_eq_true_eq] at hd
          simp only [List.length_cons]
          by_cases hb0 : b = 0xE0
          · simp only [sndOK3, hb0, if_pos, Bool.and_eq_true, decide_eq_true_eq] at hsc
            omega
          · by_cases hbd : b = 0xED
            · subst hbd
              omega
            · simp only [sndOK3, hb0, hbd, if_neg, if_false, contB, Bool.and_eq_true,
                decide_eq_true_eq] at hsc
              omega
        · rw [if_neg hcd] at h
          exact absurd h (by simp)
    · rw [if_neg h3] at h
      by_cases h4 : (0xF0 ≤ b && b ≤ 0xF4) = true
      · rw [if_pos h4] at h
        rcases rest with _ | ⟨c, _ | ⟨d, _ | ⟨e, r⟩⟩⟩
        · exact absurd h (by simp)
        · exact absurd h (by simp)
        · exact absurd h (by simp)
        · dsimp only at h
          by_cases hcde : (sndOK4 b c && contB d && contB e) = true
          · rw [if_pos hcde] at h
            simp only [Option.some.injEq, Prod.mk.injEq] at h
            obtain ⟨hv, hk⟩ := h
            simp only [Bool.and_eq_true] at hcde h4
            obtain ⟨⟨hsc, hd⟩, he⟩ := hcde
            simp only [decide_eq_true_eq] at h4
            simp only [contB, Bool.and_eq_true, decide_eq_true_eq] at hd he
            simp only [List.length_cons]
            by_cases hb0 : b = 0xF0
            · simp only [sndOK4, hb0, if_pos, Bool.and_eq_true, decide_eq_true_eq] at hsc
              omega
            · by_cases hbd : b = 0xF4
              · subst hbd
                omega
              · simp only [sndOK4, hb0, hbd, if_neg, if_false, contB, Bool.and_eq_true,
                  decide_eq_true_eq] at hsc
                omega
          · rw [if_neg hcde] at h
            exact absurd h (by simp)
      · rw [if_neg h4] at h
        exact absurd h (by simp)

theorem decodeMB_append10 (b : Nat) (rest : List Nat) :
    decodeMB b (rest ++ [10]) = decodeMB b rest := by
  have hc10 : contB 10 = false := by decide
  have hs3 : ∀ x, (sndOK3 x 10 && contB 10) = false := by
    intro x
    rw [hc10, Bool.and_false]
  have hs4 : ∀ x y, (sndOK4 x y && contB 10 && contB 10) = false := by
    intro x y
    rw [hc10, Bool.and_false]
  rcases rest with _ | ⟨c, _ | ⟨d, _ | ⟨e, r⟩⟩⟩
  · show decodeMB b [10] = decodeMB b []
    unfold decodeMB
    split
    · simp [hc10]
    · split
      · rfl
      · split
        · rfl
        · rfl
  · show decodeMB b [c, 10] = decodeMB b [c]
    unfold decodeMB
    split
    · rfl
    · split
      · dsimp only
        rw [hc10, Bool.and_false]
        simp
      · split
        · rfl
        · rfl
  · show decodeMB b [c, d, 10] = decodeMB b [c, d]
    unfold decodeMB
    split
    · rfl
    · split
      · rfl
      · split
        · dsimp only
          rw [hc10, Bool.and_false]
          simp
        · rfl
  · rfl

theorem utf8Ignore_no_newline :
    ∀ (n : Nat) (l : List Nat), l.length ≤ n → (10 ∈ l → False) →
      '\n' ∉ utf8Ignore l := by
  intro n
  induction n with
  | zero =>
    intro l hl _
    have : l = [] := List.length_eq_zero.mp (Nat.le_zero.mp hl)
    subst this
    simp [utf8Ignore]
  | succ n ih =>
    intro l hl h10
    match l with
    | [] => simp [utf8Ignore]
    | b :: rest =>
      have hlen : rest.length ≤ n := by simpa using Nat.le_of_succ_le_succ hl
      have h10r : 10 ∈ rest → False := fun hm => h10 (List.mem_cons_of_mem b hm)
      by_cases hb : b < 128
      · simp only [utf8Ignore, hb, if_true, List.mem_cons]
        rintro (he | hm)
        · have : b = 10 := charOfNat_eq_newline_small b hb he.symm
          exact h10 (this ▸ List.mem_cons_self b rest)
        · exact ih rest hlen h10r hm
      · rcases hmb : decodeMB b rest with _ | ⟨v, k⟩
        · simp only [utf8Ignore, hb, if_false, hmb]
          exact ih rest hlen h10r
        · simp only [utf8Ignore, hb, if_false, hmb, List.mem_cons]
          rintro (he | hm)
          · exact charOfNat_ne_newline v (decodeMB_bounds hmb).1 he.symm
          · have hsub : (rest.drop k).length ≤ n := by
              rw [List.length_drop]; omega
            have h10d : 10 ∈ rest.drop k → False :=
              fun hmm => h10r (List.drop_subset k rest hmm)
            exact ih (rest.drop k) hsub h10d hm

theorem utf8Ignore_append10 :
    ∀ (n : Nat) (body : List Nat), body.length ≤ n → (10 ∈ body → False) →
      utf8Ignore (body ++ [10]) = utf8Ignore body ++ ['\n'] := by
  intro n
  induction n with
  | zero =>
    intro body hl _
    have : body = [] := List.length_eq_zero.mp (Nat.le_zero.mp hl)
    subst this
    simp [utf8Ignore, decodeMB]
            
  | succ n ih =>
    intro body hl h10
    match body with
    | [] => simp [utf8Ignore, decodeMB]
    | b :: rest =>
      have hlen : rest.length ≤ n := by simpa using Nat.le_of_succ_le_succ hl
      have h10r : 10 ∈ rest → False := fun hm => h10 (List.mem_cons_of_mem b hm)
      rw [List.cons_append]
      by_cases hb : b < 128
      · simp only [utf8Ignore, hb, if_true]
        rw [ih rest hlen h10r]
        rfl
      · rcases hmb : decodeMB b rest with _ | ⟨v, k⟩
        · have hmb' : decodeMB b (rest ++ [10]) = none := by
            rw [decodeMB_append10, hmb]
          simp only [utf8Ignore, hb, if_false, hmb, hmb']
          exact ih rest hlen h10r
        · have hmb' : decodeMB b (rest ++ [10]) = some (v, k) := by
            rw [decodeMB_append10, hmb]
          have hk : k ≤ rest.length := (decodeMB_bounds hmb).2
          simp only [utf8Ignore, hb, if_false, hmb, hmb']
          rw [List.drop_append_of_le_length hk]
          have hsub : (rest.drop k).length ≤ n := by
            rw [List.length_drop]; omega
          have h10d : 10 ∈ rest.drop k → False :=
            fun hmm => h10r (List.drop_subset k rest hmm)
          rw [ih (rest.drop k) hsub h10d]
          rfl

theorem splitAux_flatten :
    ∀ (l acc : List Nat), (splitAux acc l).flatten = acc.reverse ++ l := by
  intro l
  induction l with
  | nil =>
    intro acc
    by_cases h : acc = []
    · simp [splitAux, h]
    · simp [splitAux, h]
  | cons b rest ih =>
    intro acc
    by_cases hb : b = 10
    · simp only [splitAux, hb, if_true, List.flatten_cons, ih []]
      simp
    · simp only [splitAux, hb, if_false, ih (b :: acc)]
      simp

theorem splitAux_pieces :
    ∀ (l acc : List Nat), (10 ∈ acc → False) →
      ∀ piece ∈ splitAux acc l,
        ∃ body, (10 ∈ body → False) ∧ (piece = body ∨ piece = body ++ [10]) := by
  intro l
  induction l with
  | nil =>
    intro acc hacc piece hp
    by_cases h : acc = []
    · simp [splitAux, h] at hp
    · simp only [splitAux, h, if_false, List.mem_singleton] at hp
      subst hp
      exact ⟨acc.reverse, fun hm => hacc (List.mem_reverse.mp hm), Or.inl rfl⟩
  | cons b rest ih =>
    intro acc hacc piece hp
    by_cases hb : b = 10
    · simp only [splitAux, hb, if_true, List.mem_cons] at hp
      rcases hp with hp | hp
      · refine ⟨acc.reverse, fun hm => hacc (List.mem_reverse.mp hm), Or.inr ?_⟩
        rw [hp]
        simp
      · exact ih [] (by simp) piece hp
    · simp only [splitAux, hb, if_false] at hp
      refine ih (b :: acc) ?_ piece hp
      intro hm
      rcases List.mem_cons.mp hm with he | hm'
      · exact hb he.symm
      · exact hacc hm'

theorem rstripNl_no_newline (X : List Char) (hX : '\n' ∉ X) :
    '\n' ∉ (rstripNl (String.mk X)).data := by
  intro hmem
  unfold rstripNl at hmem
  rw [data_mk, data_mk] at hmem
  rw [List.mem_reverse] at hmem
  have := mem_dropWhile_sub _ _ _ hmem
  rw [List.mem_reverse] at this
  exact hX this

/-- C9: the permissive decoder agrees with the strict decoder whenever
the bytes are valid UTF-8 (and is total, so malformed bytes never fail —
they are dropped, as the `0xFF` example shows); the byte lines
concatenate back to the original stream; and no produced line contains a
newline character. -/
theorem claim9_line_reader :
    (∀ (bs : List Nat) (cs : List Char), utf8Strict bs = some cs → utf8Ignore bs = cs)
    ∧ utf8Ignore [0x61, 0xFF, 0x62] = ['a', 'b']
    ∧ (∀ stream : List Nat, (splitLinesBytes stream).flatten = stream)
    ∧ (∀ (stream : List Nat) (l : String), l ∈ readLines stream → '\n' ∉ l.data) := by
  refine ⟨fun bs cs h => utf8_agree_aux bs.length bs le_rfl cs h,
    by simp [utf8Ignore, decodeMB, contB, sndOK3, sndOK4], fun stream => splitAux_flatten stream [],
    fun stream l hl => ?_⟩
  unfold readLines parse_log_file at hl
  simp only [List.map_map, List.mem_map, Function.comp] at hl
  obtain ⟨piece, hpiece, rfl⟩ := hl
  obtain ⟨body, hbody, hshape⟩ := splitAux_pieces stream [] (by simp) piece hpiece
  have hnonl : '\n' ∉ utf8Ignore body :=
    utf8Ignore_no_newline body.length body le_rfl hbody
  rcases hshape with hsh | hsh
  · rw [hsh]
    exact rstripNl_no_newline (utf8Ignore body) hnonl
  · rw [hsh, utf8Ignore_append10 body.length body le_rfl hbody]
    intro hmem
    unfold rstripNl at hmem
    rw [data_mk, data_mk] at hmem
    rw [List.mem_reverse] at hmem
    rw [List.reverse_append] at hmem
    have hred : ((['\n'].reverse ++ (utf8Ignore body).reverse).dropWhile (fun c => c = '\n'))
        = (utf8Ignore body).reverse.dropWhile (fun c => c = '\n') := by
      simp [List.dropWhile]
    rw [hred] at hmem
    have := mem_dropWhile_sub _ _ _ hmem
    rw [List.mem_reverse] at this
    exact hnonl this

/-- Witness for C9: the decoders agree on a concrete valid byte sequence. -/
theorem claim9_witness : utf8Ignore [104, 105] = ['h', 'i'] :=
  claim9_line_reader.1 [104, 105] ['h', 'i'] (by simp [utf8Strict, decodeMB])

/-- Witness for C6: a concrete qualifying line contributes its entry at
its zero-based index. -/
theorem claim6_witness :
    (1, rstripNl "ERROR x") ∈ detectErrors 0 ["ok line", "ERROR x"] :=
  (claim6_error_detector ["ok line", "ERROR x"]).2.2 1 "ERROR x" rfl (by decide)
